import Mathlib

/-!
local-board: the action log and the server-side stroke-erasure resolver.

A shallow embedding of `src/server.js`.  The server keeps one in-memory array
`actions` (the History); the `action` handler either resolves an
`erase-stroke-request` into `delete-stroke` tombstones or stores and
rebroadcasts the inbound action; `clear-history` empties the array and
broadcasts a `clear` marker.

Modelling choices:
* JavaScript numbers are exact rationals (`ℚ`): every arithmetic result below
  is the exact one.  `server.js` computes in IEEE doubles, so the statements
  about distances and thresholds describe the code wherever its double
  operations are exact (no rounding, no overflow); `NaN` and infinities are not
  modelled.
* A JavaScript object is a record whose fields may be absent (`Option`);
  attributes the server never reads are kept in `attrs` and pass through.
* `Date.now()` and `Math.random()` are read from an environment indexed by a
  counter (`tick`) that advances at every reading.
* `io.emit('action', a)` is recorded as the list of emitted actions, in order.
-/

namespace LocalBoard

/-! ## Data model -/

/-- A point `{x, y}` of a path. -/
structure Point where
  x : ℚ
  y : ℚ
deriving DecidableEq

/-- An action object as it travels on the wire and sits in `actions`.
`type`, `id`, `path`, `size`, `targetId` and `timestamp` are the only fields
`server.js` reads or writes; every other attribute lives in `attrs`. -/
structure Action where
  type : Option String
  id : Option String
  path : Option (List Point)
  size : Option ℚ
  targetId : Option String
  timestamp : Option Nat
  attrs : List (String × String)
deriving DecidableEq

/-- JavaScript truthiness of a string-valued field: `undefined` and the empty
string are falsy (`!act.type`, `!act.id`). -/
def truthy : Option String → Bool
  | none => false
  | some s => decide (s ≠ "")

/-- The JavaScript expression `v || d` for a numeric field `v`: the default `d`
is taken when `v` is absent and also when `v` is `0` (which is falsy). -/
def orElse (v : Option ℚ) (d : ℚ) : ℚ :=
  match v with
  | none => d
  | some q => if q = 0 then d else q

/-! ## Identifiers: `makeId` -/

/-- One base-36 digit, `0-9a-z`. -/
def digit36 (d : Nat) : Char :=
  if d < 10 then Char.ofNat (48 + d) else Char.ofNat (87 + d)

/-- Digits of `n` in base 36, most significant first, pushed in front of `acc`.
The first argument bounds the number of digits; `n + 1` always suffices. -/
def toString36Aux : Nat → Nat → List Char → List Char
  | 0, _, acc => acc
  | fuel + 1, n, acc =>
    if n / 36 = 0 then digit36 (n % 36) :: acc
    else toString36Aux fuel (n / 36) (digit36 (n % 36) :: acc)

/-- `Number.prototype.toString(36)` on a non-negative integer. -/
def toString36 (n : Nat) : String :=
  String.mk (toString36Aux (n + 1) n [])

/-- The outside world as seen by the server: the clock and the random source,
each indexed by the number of readings made so far. -/
structure Env where
  now : Nat → Nat
  random : Nat → Nat

/-- `makeId(prefix)`:
`prefix + Date.now().toString(36) + '-' + Math.floor(Math.random() * 1e6).toString(36)`,
evaluated at reading number `k`. -/
def makeId (env : Env) (pfx : String) (k : Nat) : String :=
  pfx ++ toString36 (env.now k) ++ "-" ++ toString36 (env.random k % 1000000)

/-! ## Server state -/

/-- The process state: the `actions` array and the number of clock/random
readings made so far. -/
structure Server where
  actions : List Action
  tick : Nat

/-- The state at process start: `let actions = []`. -/
def Server.init : Server := { actions := [], tick := 0 }

/-! ## JavaScript `Set` of ids (insertion ordered, no duplicates) -/

/-- `set.add(v)`. -/
def setAdd (s : List (Option String)) (v : Option String) : List (Option String) :=
  if v ∈ s then s else s ++ [v]

/-- `new Set(l)`. -/
def setOfList (l : List (Option String)) : List (Option String) :=
  l.foldl setAdd []

/-- `set.has(v)`. -/
def setHas (s : List (Option String)) (v : Option String) : Bool :=
  decide (v ∈ s)

/-! ## Erasure resolver -/

/-- `dist2(a, b)`: `dx*dx + dy*dy`, in exact arithmetic. -/
def dist2 (a b : Point) : ℚ :=
  let dx := a.x - b.x
  let dy := a.y - b.y
  dx * dx + dy * dy

/-- `new Set(actions.filter(a => a.type === 'delete-stroke').map(a => a.targetId))`. -/
def deleted (actions : List Action) : List (Option String) :=
  setOfList ((actions.filter (fun a => decide (a.type = some "delete-stroke"))).map
    (fun a => a.targetId))

/-- `actions.filter(a => a.type === 'stroke' && !deleted.has(a.id))`. -/
def strokeCandidates (actions : List Action) : List Action :=
  actions.filter (fun a => decide (a.type = some "stroke") && !setHas (deleted actions) a.id)

/-- The inner loop `for (j ...)` of the hit test for one stroke point `sp`:
stops at the first eraser point within the threshold.  Both sides of the
comparison are exact rationals; the doubles of `server.js` agree with them as
long as no operation rounds or overflows. -/
def hitInner (eraserRadius : ℚ) (s : Action) (sp : Point) : List Point → Bool
  | [] => false
  | ep :: rest =>
    if dist2 sp ep ≤ (eraserRadius + orElse s.size 4) * (eraserRadius + orElse s.size 4) then true
    else hitInner eraserRadius s sp rest

/-- The outer loop `for (i ...; i < path.length && !hit; ...)` of the hit test. -/
def hitOuter (eraserPath : List Point) (eraserRadius : ℚ) (s : Action) : List Point → Bool
  | [] => false
  | sp :: rest =>
    if hitInner eraserRadius s sp eraserPath then true
    else hitOuter eraserPath eraserRadius s rest

/-- The value of `hit` for candidate stroke `s` at the end of the loop body
(`false` when `s.path` is absent or empty: `continue`). -/
def hitTest (eraserPath : List Point) (eraserRadius : ℚ) (s : Action) : Bool :=
  let path := s.path.getD []
  if path.length = 0 then false
  else hitOuter eraserPath eraserRadius s path

/-- The set `toDelete` after the loop over `strokeCandidates`. -/
def toDelete (eraserPath : List Point) (eraserRadius : ℚ) (cands : List Action) :
    List (Option String) :=
  cands.foldl (fun acc s => if hitTest eraserPath eraserRadius s then setAdd acc s.id else acc) []

/-- The tombstone built for stroke id `sid` when the counter stands at `k`:
`{ type: 'delete-stroke', id: makeId('del-'), targetId: sid, timestamp: Date.now() }`. -/
def mkDelete (env : Env) (k : Nat) (sid : Option String) : Action :=
  { type := some "delete-stroke"
    id := some (makeId env "del-" k)
    path := none
    size := none
    targetId := sid
    timestamp := some (env.now (k + 1))
    attrs := [] }

/-- The loop `for (const sid of toDelete) { ...; actions.push(del); io.emit('action', del); }`.
The third argument accumulates the emitted actions. -/
def emitDeletes (env : Env) : List (Option String) → Server → List Action → Server × List Action
  | [], sv, out => (sv, out)
  | sid :: rest, sv, out =>
    let del := mkDelete env sv.tick sid
    emitDeletes env rest { actions := sv.actions ++ [del], tick := sv.tick + 2 } (out ++ [del])

/-! ## Session handlers -/

/-- The action after `if (!act.id) act.id = makeId('a-')`. -/
def ensureId (env : Env) (k : Nat) (act : Action) : Action :=
  if truthy act.id then act else { act with id := some (makeId env "a-" k) }

/-- The handler `socket.on('action', act => ...)`: the new state and the
actions emitted to all clients, in order.  `none` is an absent (`null` or
`undefined`) message. -/
def onAction (env : Env) (sv : Server) (msg : Option Action) : Server × List Action :=
  match msg with
  | none => (sv, [])
  | some act0 =>
    if !truthy act0.type then (sv, [])
    else
      let act := ensureId env sv.tick act0
      let tick := if truthy act0.id then sv.tick else sv.tick + 1
      if act.type = some "erase-stroke-request" then
        let eraserPath := act.path.getD []
        let eraserRadius := orElse act.size 20 / 2
        emitDeletes env (toDelete eraserPath eraserRadius (strokeCandidates sv.actions))
          { actions := sv.actions, tick := tick } []
      else
        ({ actions := sv.actions ++ [act], tick := tick }, [act])

/-- The marker emitted by `clear-history`: `{ type: 'clear', id: makeId('clear-') }`. -/
def mkClear (env : Env) (k : Nat) : Action :=
  { type := some "clear"
    id := some (makeId env "clear-" k)
    path := none
    size := none
    targetId := none
    timestamp := none
    attrs := [] }

/-- The handler `socket.on('clear-history', ...)`. -/
def onClearHistory (env : Env) (sv : Server) : Server × List Action :=
  ({ actions := [], tick := sv.tick + 1 }, [mkClear env sv.tick])

/-- The payload of `socket.emit('init', actions)` sent to a client that connects
in state `sv`. -/
def onConnection (sv : Server) : List Action :=
  sv.actions

/-- An inbound message. -/
inductive Msg where
  | action (act : Option Action)
  | clearHistory
deriving DecidableEq

/-- One inbound message handled. -/
def step (env : Env) (sv : Server) : Msg → Server × List Action
  | Msg.action act => onAction env sv act
  | Msg.clearHistory => onClearHistory env sv

/-- A run of the server over a sequence of messages, from state `sv`: the final
state and the log, one entry per message with what the message caused to be
broadcast. -/
def run (env : Env) : Server → List Msg → Server × List (Msg × List Action)
  | sv, [] => (sv, [])
  | sv, m :: ms =>
    let r := step env sv m
    let rest := run env r.1 ms
    (rest.1, (m, r.2) :: rest.2)

/-! ## Derived definitions used to state the properties -/

/-- The resolver's hit test for stroke `s` under erase request `e`: `hitTest`
with `eraserPath = e.path || []` and `eraserRadius = (e.size || 20) / 2`. -/
def resolverHit (e s : Action) : Bool :=
  hitTest (e.path.getD []) (orElse e.size 20 / 2) s

/-- The hit condition in the words of the specification: some point of the
stroke path lies within `e.size/2 + s.size/2` of some point of the eraser path
(squared comparison), `s.size` read as 4 and `e.size` as 20 when absent. -/
def specHit (e s : Action) : Prop :=
  ∃ p ∈ s.path.getD [], ∃ q ∈ e.path.getD [],
    dist2 p q ≤ (e.size.getD 20 / 2 + s.size.getD 4 / 2) ^ 2

/-- The list of tombstones built for the ids `ids`, the counter starting at `k`
(two readings per tombstone: `makeId` and `Date.now()`). -/
def tombstones (env : Env) : Nat → List (Option String) → List Action
  | _, [] => []
  | k, sid :: rest => mkDelete env k sid :: tombstones env (k + 2) rest

/-- A stroke action of history `h` is tombstoned when some `delete-stroke`
action of `h` carries its id as `targetId`. -/
def Tombstoned (h : List Action) (i : Option String) : Prop :=
  ∃ d ∈ h, d.type = some "delete-stroke" ∧ d.targetId = i

/-- The actions broadcast since the most recent `clear-history` request of a
log, the marker broadcast by that request excluded. -/
def broadcastSinceClear (log : List (Msg × List Action)) : List Action :=
  log.foldl (fun acc e => if e.1 = Msg.clearHistory then [] else acc ++ e.2) []

/-- A fixed environment for concrete evaluations. -/
def env0 : Env := { now := fun k => 1000 + k, random := fun k => 7 * k + 5 }

/-- Build a stroke with the given id, path and size. -/
def mkStroke (i : String) (p : List Point) (sz : Option ℚ) : Action :=
  { type := some "stroke", id := some i, path := some p, size := sz,
    targetId := none, timestamp := none, attrs := [] }

/-- Build an erase request (without id) with the given path and size. -/
def mkErase (p : List Point) (sz : Option ℚ) : Action :=
  { type := some "erase-stroke-request", id := none, path := some p, size := sz,
    targetId := none, timestamp := none, attrs := [] }

/-- The history of the specification's scenario: strokes `s1` at the origin and
`s2` at `(100, 100)`. -/
def sv0 : Server :=
  { actions := [mkStroke "s1" [⟨0, 0⟩] none, mkStroke "s2" [⟨100, 100⟩] none], tick := 0 }

/-- The erase request of the specification's scenario: path `[(0, 0)]`, size 20. -/
def erase0 : Action := mkErase [⟨0, 0⟩] (some 20)

/-- The ids the erase branch tombstones for request `act` against history `h`. -/
def eraseIds (h : List Action) (act : Action) : List (Option String) :=
  toDelete (act.path.getD []) (orElse act.size 20 / 2) (strokeCandidates h)

/-- No action of the history has type `erase-stroke-request`. -/
def NoEraseRequest (h : List Action) : Prop :=
  ∀ a ∈ h, a.type ≠ some "erase-stroke-request"

/-- The value bound to `eraserRadius` for request `act`: `(act.size || 20) / 2`. -/
def eraserRadius (act : Action) : ℚ :=
  orElse act.size 20 / 2

/-- The visible strokes of a history, in the words of the specification: the
`stroke` actions whose id is not the `targetId` of any `delete-stroke` action
of the history. -/
def visible (h : List Action) : List Action :=
  h.filter (fun a => decide (a.type = some "stroke") &&
    !(h.any (fun d => decide (d.type = some "delete-stroke") && decide (d.targetId = a.id))))

/-- The ids of the `stroke` actions of a history, in order of occurrence. -/
def strokeIds (h : List Action) : List (Option String) :=
  (h.filter (fun a => decide (a.type = some "stroke"))).map (fun a => a.id)

/-- Every action of the history has a non-empty type tag and a non-empty id. -/
def WellTagged (h : List Action) : Prop :=
  ∀ a ∈ h, truthy a.type = true ∧ truthy a.id = true

/-- Stroke `a` of history `h` is a candidate (a `stroke` not yet tombstoned)
that the request `act` hits. -/
def isHitCandidate (h : List Action) (act a : Action) : Bool :=
  decide (a.type = some "stroke") && !setHas (deleted h) a.id && resolverHit act a

/-- Position in `h` of the first `stroke` action carrying id `x`
(`h.length` when there is none). -/
def firstStrokeIdx (h : List Action) (x : Option String) : Nat :=
  h.findIdx (fun a => decide (a.type = some "stroke") && decide (a.id = x))

/-- Position in `h` of the first candidate stroke hit by `act` that carries id
`x` (`h.length` when there is none). -/
def firstHitIdx (h : List Action) (act : Action) (x : Option String) : Nat :=
  h.findIdx (fun a => isHitCandidate h act a && decide (a.id = x))

/-- A history in which two strokes carry the same id `s1`: the first has an
empty path, the second has one point at the origin. -/
def svDup : Server :=
  { actions := [mkStroke "s1" [] none, mkStroke "s1" [⟨0, 0⟩] none], tick := 0 }

/-- A history in which the id `a` is carried by two strokes: the first lies far
from the origin, the second at the origin; stroke `b` lies at the origin
between them. -/
def svOrder : Server :=
  { actions := [mkStroke "a" [⟨500, 500⟩] none, mkStroke "b" [⟨0, 0⟩] none,
      mkStroke "a" [⟨0, 0⟩] none], tick := 0 }

/-! ## Lemmas on the id sets -/

theorem mem_setAdd (s : List (Option String)) (v x : Option String) :
    x ∈ setAdd s v ↔ x ∈ s ∨ x = v := by
  unfold setAdd
  split
  · constructor
    · intro h; exact Or.inl h
    · rintro (h | h)
      · exact h
      · subst h; assumption
  · simp

theorem nodup_setAdd (s : List (Option String)) (v : Option String) (h : s.Nodup) :
    (setAdd s v).Nodup := by
  unfold setAdd
  split
  · exact h
  · rename_i hv
    exact List.Nodup.append h (List.nodup_singleton v) (by simpa using hv)

theorem mem_foldl_setAdd (l init : List (Option String)) (x : Option String) :
    x ∈ l.foldl setAdd init ↔ x ∈ init ∨ x ∈ l := by
  induction l generalizing init with
  | nil => simp
  | cons a t ih =>
    simp only [List.foldl_cons, ih, mem_setAdd, List.mem_cons]
    tauto

theorem mem_setOfList (l : List (Option String)) (x : Option String) :
    x ∈ setOfList l ↔ x ∈ l := by
  simp [setOfList, mem_foldl_setAdd]

theorem mem_deleted (h : List Action) (i : Option String) :
    i ∈ deleted h ↔ Tombstoned h i := by
  simp only [deleted, mem_setOfList, Tombstoned, List.mem_map, List.mem_filter,
    decide_eq_true_eq]
  constructor
  · rintro ⟨a, ⟨h1, h2⟩, h3⟩; exact ⟨a, h1, h2, h3⟩
  · rintro ⟨a, h1, h2, h3⟩; exact ⟨a, ⟨h1, h2⟩, h3⟩

theorem mem_strokeCandidates (h : List Action) (s : Action) :
    s ∈ strokeCandidates h ↔ s ∈ h ∧ s.type = some "stroke" ∧ ¬ Tombstoned h s.id := by
  simp [strokeCandidates, setHas, mem_deleted]

theorem mem_foldl_toDelete (p : Action → Bool) (l : List Action) (init : List (Option String))
    (x : Option String) :
    x ∈ l.foldl (fun acc s => if p s then setAdd acc s.id else acc) init ↔
      x ∈ init ∨ ∃ s ∈ l, p s = true ∧ s.id = x := by
  induction l generalizing init with
  | nil => simp
  | cons a t ih =>
    simp only [List.foldl_cons, ih, List.mem_cons]
    by_cases hp : p a = true
    · simp only [hp, if_true, mem_setAdd]
      constructor
      · rintro ((h | h) | ⟨s, hs, h1, h2⟩)
        · exact Or.inl h
        · exact Or.inr ⟨a, Or.inl rfl, hp, h.symm⟩
        · exact Or.inr ⟨s, Or.inr hs, h1, h2⟩
      · rintro (h | ⟨s, hs | hs, h1, h2⟩)
        · exact Or.inl (Or.inl h)
        · subst hs; exact Or.inl (Or.inr h2.symm)
        · exact Or.inr ⟨s, hs, h1, h2⟩
    · simp only [hp, Bool.false_eq_true, if_false]
      constructor
      · rintro (h | ⟨s, hs, h1, h2⟩)
        · exact Or.inl h
        · exact Or.inr ⟨s, Or.inr hs, h1, h2⟩
      · rintro (h | ⟨s, hs | hs, h1, h2⟩)
        · exact Or.inl h
        · subst hs; exact absurd h1 hp
        · exact Or.inr ⟨s, hs, h1, h2⟩

theorem nodup_foldl_toDelete (p : Action → Bool) (l : List Action) (init : List (Option String))
    (h : init.Nodup) :
    (l.foldl (fun acc s => if p s then setAdd acc s.id else acc) init).Nodup := by
  induction l generalizing init with
  | nil => simpa using h
  | cons a t ih =>
    simp only [List.foldl_cons]
    apply ih
    split
    · exact nodup_setAdd _ _ h
    · exact h

theorem mem_toDelete (ep : List Point) (r : ℚ) (cands : List Action) (x : Option String) :
    x ∈ toDelete ep r cands ↔ ∃ s ∈ cands, hitTest ep r s = true ∧ s.id = x := by
  simp [toDelete, mem_foldl_toDelete]

theorem nodup_toDelete (ep : List Point) (r : ℚ) (cands : List Action) :
    (toDelete ep r cands).Nodup :=
  nodup_foldl_toDelete _ _ _ List.nodup_nil

/-! ## Lemmas on the hit test -/

theorem hitInner_iff (r : ℚ) (s : Action) (sp : Point) (ep : List Point) :
    hitInner r s sp ep = true ↔ ∃ q ∈ ep, dist2 sp q ≤ (r + orElse s.size 4) ^ 2 := by
  induction ep with
  | nil => simp [hitInner]
  | cons q t ih =>
    unfold hitInner
    split
    · rename_i hq
      simp only [true_iff]
      exact ⟨q, List.mem_cons_self _ _, by rw [pow_two]; exact hq⟩
    · rename_i hq
      have hq2 : ¬ dist2 sp q ≤ (r + orElse s.size 4) ^ 2 := by rw [pow_two]; exact hq
      rw [ih]
      constructor
      · rintro ⟨q1, hq1, h⟩; exact ⟨q1, List.mem_cons_of_mem _ hq1, h⟩
      · rintro ⟨q1, hq1, h⟩
        rcases List.mem_cons.mp hq1 with h1 | h1
        · subst h1; exact absurd h hq2
        · exact ⟨q1, h1, h⟩

theorem hitOuter_iff (ep : List Point) (r : ℚ) (s : Action) (path : List Point) :
    hitOuter ep r s path = true ↔
      ∃ p ∈ path, ∃ q ∈ ep, dist2 p q ≤ (r + orElse s.size 4) ^ 2 := by
  induction path with
  | nil => simp [hitOuter]
  | cons p t ih =>
    unfold hitOuter
    split
    · rename_i hp
      simp only [true_iff]
      exact ⟨p, List.mem_cons_self _ _, (hitInner_iff r s p ep).mp hp⟩
    · rename_i hp
      rw [ih]
      constructor
      · rintro ⟨p1, hp1, h⟩; exact ⟨p1, List.mem_cons_of_mem _ hp1, h⟩
      · rintro ⟨p1, hp1, h⟩
        rcases List.mem_cons.mp hp1 with h1 | h1
        · subst h1; exact absurd ((hitInner_iff r s p1 ep).mpr h) hp
        · exact ⟨p1, h1, h⟩

theorem hitTest_iff (ep : List Point) (r : ℚ) (s : Action) :
    hitTest ep r s = true ↔
      ∃ p ∈ s.path.getD [], ∃ q ∈ ep, dist2 p q ≤ (r + orElse s.size 4) ^ 2 := by
  unfold hitTest
  simp only
  split
  · rename_i h0
    have : s.path.getD [] = [] := List.length_eq_zero.mp h0
    simp [this]
  · exact hitOuter_iff ep r s _

/-! ## Lemmas on the tombstone loop and the erase branch -/

theorem emitDeletes_eq (env : Env) (ids : List (Option String)) (sv : Server)
    (out : List Action) :
    emitDeletes env ids sv out =
      ({ actions := sv.actions ++ tombstones env sv.tick ids,
         tick := sv.tick + 2 * ids.length },
       out ++ tombstones env sv.tick ids) := by
  induction ids generalizing sv out with
  | nil => simp [emitDeletes, tombstones]
  | cons i t ih =>
    simp only [emitDeletes, tombstones, ih, List.length_cons, List.append_assoc,
      List.singleton_append]
    congr 2
    omega

theorem map_targetId_tombstones (env : Env) (k : Nat) (ids : List (Option String)) :
    (tombstones env k ids).map (fun a => a.targetId) = ids := by
  induction ids generalizing k with
  | nil => simp [tombstones]
  | cons i t ih => simp [tombstones, ih, mkDelete]

theorem type_of_mem_tombstones (env : Env) (k : Nat) (ids : List (Option String)) (d : Action)
    (h : d ∈ tombstones env k ids) : d.type = some "delete-stroke" := by
  induction ids generalizing k with
  | nil => simp [tombstones] at h
  | cons i t ih =>
    simp only [tombstones, List.mem_cons] at h
    rcases h with h | h
    · subst h; rfl
    · exact ih _ h

theorem truthy_of_erase (act : Action) (h : act.type = some "erase-stroke-request") :
    truthy act.type = true := by
  rw [h]; decide

theorem ensureId_type (env : Env) (k : Nat) (act : Action) :
    (ensureId env k act).type = act.type := by
  unfold ensureId; split <;> rfl

theorem ensureId_path (env : Env) (k : Nat) (act : Action) :
    (ensureId env k act).path = act.path := by
  unfold ensureId; split <;> rfl

theorem ensureId_size (env : Env) (k : Nat) (act : Action) :
    (ensureId env k act).size = act.size := by
  unfold ensureId; split <;> rfl

/-- The erase branch in closed form: the tombstones of `eraseIds` are appended
to the history and are exactly what is broadcast. -/
theorem onAction_erase (env : Env) (sv : Server) (act : Action)
    (h : act.type = some "erase-stroke-request") :
    onAction env sv (some act) =
      ({ actions := sv.actions ++
           tombstones env (if truthy act.id then sv.tick else sv.tick + 1)
             (eraseIds sv.actions act),
         tick := (if truthy act.id then sv.tick else sv.tick + 1) +
           2 * (eraseIds sv.actions act).length },
       tombstones env (if truthy act.id then sv.tick else sv.tick + 1)
         (eraseIds sv.actions act)) := by
  have ht : truthy (some "erase-stroke-request") = true := by decide
  simp only [onAction, ht, Bool.not_true, Bool.false_eq_true, if_false,
    ensureId_type, ensureId_path, ensureId_size, h, if_true, emitDeletes_eq, List.nil_append,
    eraseIds]

theorem mem_eraseIds (h : List Action) (act : Action) (x : Option String) :
    x ∈ eraseIds h act ↔
      ∃ s ∈ h, s.type = some "stroke" ∧ ¬ Tombstoned h s.id ∧
        resolverHit act s = true ∧ s.id = x := by
  simp only [eraseIds, mem_toDelete, mem_strokeCandidates, resolverHit]
  constructor
  · rintro ⟨s, ⟨h1, h2, h3⟩, h4, h5⟩; exact ⟨s, h1, h2, h3, h4, h5⟩
  · rintro ⟨s, h1, h2, h3, h4, h5⟩; exact ⟨s, ⟨h1, h2, h3⟩, h4, h5⟩

theorem nodup_eraseIds (h : List Action) (act : Action) : (eraseIds h act).Nodup :=
  nodup_toDelete _ _ _

/-! ## C1: the hit test -/

/-- C1 (as stated, refuted): with the eraser at distance 13 from the only point
of a stroke of size 4 and an eraser of size 20, the resolver reports a hit
(169 ≤ (10 + 4)²) although no pair of points is within the specified combined
distance `e.size/2 + s.size/2 = 12` (169 > 144). -/
theorem C1_hit_not_half_width :
    ¬ (resolverHit (mkErase [⟨13, 0⟩] (some 20)) (mkStroke "s1" [⟨0, 0⟩] (some 4)) = true ↔
        specHit (mkErase [⟨13, 0⟩] (some 20)) (mkStroke "s1" [⟨0, 0⟩] (some 4))) := by
  have h1 : resolverHit (mkErase [⟨13, 0⟩] (some 20)) (mkStroke "s1" [⟨0, 0⟩] (some 4)) = true := by
    simp [resolverHit, hitTest, hitOuter, hitInner, mkErase, mkStroke, orElse, dist2]
    norm_num
  have h2 : ¬ specHit (mkErase [⟨13, 0⟩] (some 20)) (mkStroke "s1" [⟨0, 0⟩] (some 4)) := by
    simp [specHit, mkErase, mkStroke, dist2]
    norm_num
  intro h
  exact h2 (h.mp h1)

/-- C1 (amended): in exact arithmetic, the resolver's hit test for stroke `s`
under erase request `e` succeeds exactly when some point `p` of `s.path` and
some point `q` of `e.path` satisfy `dist2 p q ≤ (E/2 + S)²`, where `E` is
`e.size`, read as 20 when absent or zero, and `S` is the full `s.size` (not
halved), read as 4 when absent or zero; absent paths count as empty.  The
statement is about exact values: where a double operation of `server.js`
rounds or overflows, the code may decide differently
(`resolverHit_exact_at_rounding_boundary`). -/
theorem C1_resolverHit_iff (e s : Action) :
    resolverHit e s = true ↔
      ∃ p ∈ s.path.getD [], ∃ q ∈ e.path.getD [],
        dist2 p q ≤ (orElse e.size 20 / 2 + orElse s.size 4) ^ 2 := by
  unfold resolverHit
  exact hitTest_iff _ _ _

/-- A size of `0` is falsy and is replaced by the default, like an absent one. -/
theorem orElse_zero (d : ℚ) : orElse (some 0) d = d ∧ orElse none d = d := by
  simp [orElse]

/-- An eraser of size `0` behaves as one of size 20: at distance 13 from a
stroke of size 4 it still hits (169 ≤ (10 + 4)²). -/
theorem resolverHit_zero_eraser_size :
    resolverHit (mkErase [⟨13, 0⟩] (some 0)) (mkStroke "s1" [⟨0, 0⟩] (some 4)) = true := by
  simp [resolverHit, hitTest, hitOuter, hitInner, mkErase, mkStroke, orElse, dist2]
  norm_num

/-- The limit of the exact model: stroke point `(2²⁷, 1)` of size 4, eraser at
the origin of size `2²⁸ - 8`.  The exact squared distance `2⁵⁴ + 1` exceeds the
exact squared threshold `2⁵⁴`, so the exact hit test fails; in IEEE doubles
`2⁵⁴ + 1` rounds to `2⁵⁴` and `server.js` reports a hit. -/
theorem resolverHit_exact_at_rounding_boundary :
    resolverHit (mkErase [⟨0, 0⟩] (some 268435448))
      (mkStroke "s1" [⟨134217728, 1⟩] (some 4)) = false ∧
    dist2 ⟨134217728, 1⟩ ⟨0, 0⟩ = 2 ^ 54 + 1 ∧
    (orElse (some 268435448) 20 / 2 + orElse (some 4) 4) ^ 2 = 2 ^ 54 := by
  refine ⟨?_, ?_, ?_⟩
  · simp [resolverHit, hitTest, hitOuter, hitInner, mkErase, mkStroke, orElse, dist2]
    norm_num
  · simp [dist2]
    norm_num
  · simp [orElse]
    norm_num

/-- A present non-zero size is used as it is. -/
theorem orElse_of_ne_zero (q d : ℚ) (h : q ≠ 0) : orElse (some q) d = q := by
  simp [orElse, h]

/-! ## C2, C3: what the erase branch produces -/

/-- C2: every action produced by an erase-stroke-request is a `delete-stroke`
whose `targetId` is the id of a `stroke` action of the history and is not the
`targetId` of any `delete-stroke` action already in the history; and the
tombstones of one request have pairwise different `targetId`s. -/
theorem C2_tombstones_target_live_strokes (env : Env) (sv : Server) (act : Action)
    (h : act.type = some "erase-stroke-request") :
    (∀ d ∈ (onAction env sv (some act)).2,
        d.type = some "delete-stroke" ∧
        (∃ s ∈ sv.actions, s.type = some "stroke" ∧ s.id = d.targetId) ∧
        ¬ ∃ t ∈ sv.actions, t.type = some "delete-stroke" ∧ t.targetId = d.targetId) ∧
      ((onAction env sv (some act)).2.map (fun a => a.targetId)).Nodup := by
  rw [onAction_erase env sv act h]
  simp only [map_targetId_tombstones]
  refine ⟨?_, nodup_eraseIds _ _⟩
  intro d hd
  have hty := type_of_mem_tombstones _ _ _ _ hd
  have hmem : d.targetId ∈ eraseIds sv.actions act := by
    have := List.mem_map_of_mem (fun a => a.targetId) hd
    rwa [map_targetId_tombstones] at this
  obtain ⟨s, hs, hst, hnt, _, hid⟩ := (mem_eraseIds _ _ _).mp hmem
  refine ⟨hty, ⟨s, hs, hst, hid⟩, ?_⟩
  rw [← hid]
  exact hnt

/-- C2 instance: the scenario of the specification (strokes `s1`, `s2`, eraser at
the origin). -/
theorem C2_tombstones_target_live_strokes_witness :
    erase0.type = some "erase-stroke-request" ∧
    ((∀ d ∈ (onAction env0 sv0 (some erase0)).2,
        d.type = some "delete-stroke" ∧
        (∃ s ∈ sv0.actions, s.type = some "stroke" ∧ s.id = d.targetId) ∧
        ¬ ∃ t ∈ sv0.actions, t.type = some "delete-stroke" ∧ t.targetId = d.targetId) ∧
      ((onAction env0 sv0 (some erase0)).2.map (fun a => a.targetId)).Nodup) :=
  ⟨rfl, C2_tombstones_target_live_strokes env0 sv0 erase0 rfl⟩

/-- C3: while an erase-stroke-request is handled, the broadcast list is, in
order, the list of actions appended to the history; all of them are
`delete-stroke` actions; their `targetId`s are pairwise different and are
exactly the ids of the candidate strokes (type `stroke`, not tombstoned in the
history) that have a hit; when no candidate is hit nothing is broadcast. -/
theorem C3_broadcast_is_appended_tombstones (env : Env) (sv : Server) (act : Action)
    (h : act.type = some "erase-stroke-request") :
    (onAction env sv (some act)).1.actions = sv.actions ++ (onAction env sv (some act)).2 ∧
    (∀ d ∈ (onAction env sv (some act)).2, d.type = some "delete-stroke") ∧
    ((onAction env sv (some act)).2.map (fun a => a.targetId)).Nodup ∧
    (∀ i, i ∈ (onAction env sv (some act)).2.map (fun a => a.targetId) ↔
      ∃ s ∈ sv.actions, s.type = some "stroke" ∧ ¬ Tombstoned sv.actions s.id ∧
        resolverHit act s = true ∧ s.id = i) ∧
    ((∀ s ∈ sv.actions, s.type = some "stroke" → ¬ Tombstoned sv.actions s.id →
        resolverHit act s = false) → (onAction env sv (some act)).2 = []) := by
  rw [onAction_erase env sv act h]
  refine ⟨rfl, fun d hd => type_of_mem_tombstones _ _ _ _ hd, ?_, ?_, ?_⟩
  · rw [map_targetId_tombstones]; exact nodup_eraseIds _ _
  · intro i; rw [map_targetId_tombstones]; exact mem_eraseIds _ _ _
  intro hno
  have hnil : eraseIds sv.actions act = [] := by
    apply List.eq_nil_iff_forall_not_mem.mpr
    intro x hx
    obtain ⟨s, hs, hst, hnt, hhit, _⟩ := (mem_eraseIds _ _ _).mp hx
    rw [hno s hs hst hnt] at hhit
    exact Bool.false_ne_true hhit
  rw [hnil]
  rfl

/-- C3 instance: the scenario of the specification. -/
theorem C3_broadcast_is_appended_tombstones_witness :
    erase0.type = some "erase-stroke-request" ∧
    (onAction env0 sv0 (some erase0)).1.actions =
      sv0.actions ++ (onAction env0 sv0 (some erase0)).2 ∧
    (∀ d ∈ (onAction env0 sv0 (some erase0)).2, d.type = some "delete-stroke") ∧
    ((onAction env0 sv0 (some erase0)).2.map (fun a => a.targetId)).Nodup ∧
    (∀ i, i ∈ (onAction env0 sv0 (some erase0)).2.map (fun a => a.targetId) ↔
      ∃ s ∈ sv0.actions, s.type = some "stroke" ∧ ¬ Tombstoned sv0.actions s.id ∧
        resolverHit erase0 s = true ∧ s.id = i) ∧
    ((∀ s ∈ sv0.actions, s.type = some "stroke" → ¬ Tombstoned sv0.actions s.id →
        resolverHit erase0 s = false) → (onAction env0 sv0 (some erase0)).2 = []) :=
  ⟨rfl, C3_broadcast_is_appended_tombstones env0 sv0 erase0 rfl⟩

/-- The scenario of the specification, evaluated: exactly one broadcast, the
tombstone of `s1`; `s2` is untouched. -/
theorem scenario_erase_s1 :
    (onAction env0 sv0 (some erase0)).2.map (fun a => (a.type, a.targetId)) =
      [(some "delete-stroke", some "s1")] := by
  rw [onAction_erase env0 sv0 erase0 rfl]
  have hids : eraseIds sv0.actions erase0 = [some "s1"] := by
    simp [eraseIds, toDelete, strokeCandidates, deleted, setOfList, setHas, setAdd, sv0, erase0,
      mkStroke, mkErase, hitTest, hitOuter, hitInner, orElse, dist2]
    norm_num
  rw [hids]
  rfl

/-! ## C4: erase idempotence -/

theorem resolverHit_congr (r1 r2 s : Action) (hp : r2.path = r1.path) (hs : r2.size = r1.size) :
    resolverHit r2 s = resolverHit r1 s := by
  simp [resolverHit, hp, hs]

theorem eraseIds_after_erase (env : Env) (k : Nat) (h : List Action) (r1 r2 : Action)
    (hp : r2.path = r1.path) (hs : r2.size = r1.size) :
    eraseIds (h ++ tombstones env k (eraseIds h r1)) r2 = [] := by
  apply List.eq_nil_iff_forall_not_mem.mpr
  intro x hx
  obtain ⟨s, hs1, hst, hnt, hhit, _⟩ := (mem_eraseIds _ _ _).mp hx
  rcases List.mem_append.mp hs1 with hin | hin
  · have hnt0 : ¬ Tombstoned h s.id := by
      rintro ⟨d, hd, hd1, hd2⟩
      exact hnt ⟨d, List.mem_append_left _ hd, hd1, hd2⟩
    rw [resolverHit_congr r1 r2 s hp hs] at hhit
    have hmem : s.id ∈ eraseIds h r1 := (mem_eraseIds _ _ _).mpr ⟨s, hin, hst, hnt0, hhit, rfl⟩
    rw [← map_targetId_tombstones env k (eraseIds h r1)] at hmem
    obtain ⟨d, hd, hd2⟩ := List.mem_map.mp hmem
    exact hnt ⟨d, List.mem_append_right _ hd, type_of_mem_tombstones _ _ _ _ hd, hd2⟩
  · have := type_of_mem_tombstones _ _ _ _ hin
    rw [hst] at this
    exact absurd this (by decide)

/-- C4: handling an erase-stroke-request and then a request with the same path
and size (in particular the same request again) broadcasts nothing the second
time and leaves the history as the first handling left it; hence, over both
handlings, no stroke id is the target of two tombstones. -/
theorem C4_erase_idempotent (env : Env) (sv : Server) (r1 r2 : Action)
    (h1 : r1.type = some "erase-stroke-request") (h2 : r2.type = some "erase-stroke-request")
    (hp : r2.path = r1.path) (hs : r2.size = r1.size) :
    (onAction env (onAction env sv (some r1)).1 (some r2)).2 = [] ∧
    (onAction env (onAction env sv (some r1)).1 (some r2)).1.actions =
      (onAction env sv (some r1)).1.actions ∧
    (((onAction env sv (some r1)).2 ++
        (onAction env (onAction env sv (some r1)).1 (some r2)).2).map
      (fun a => a.targetId)).Nodup := by
  rw [onAction_erase env sv r1 h1, onAction_erase env _ r2 h2]
  simp only [eraseIds_after_erase env _ sv.actions r1 r2 hp hs, tombstones, List.append_nil,
    map_targetId_tombstones, true_and]
  exact nodup_eraseIds _ _

/-- C4 instance: the scenario of the specification, the same request sent twice. -/
theorem C4_erase_idempotent_witness :
    erase0.type = some "erase-stroke-request" ∧ erase0.path = erase0.path ∧
    erase0.size = erase0.size ∧
    (onAction env0 (onAction env0 sv0 (some erase0)).1 (some erase0)).2 = [] ∧
    (onAction env0 (onAction env0 sv0 (some erase0)).1 (some erase0)).1.actions =
      (onAction env0 sv0 (some erase0)).1.actions ∧
    (((onAction env0 sv0 (some erase0)).2 ++
        (onAction env0 (onAction env0 sv0 (some erase0)).1 (some erase0)).2).map
      (fun a => a.targetId)).Nodup :=
  ⟨rfl, rfl, rfl, C4_erase_idempotent env0 sv0 erase0 erase0 rfl rfl rfl rfl⟩

/-! ## Lemmas on the `action` handler as a whole -/

/-- An id made by `makeId` is never empty (it contains the separator `-`), hence
truthy. -/
theorem truthy_makeId (env : Env) (pfx : String) (k : Nat) :
    truthy (some (makeId env pfx k)) = true := by
  have h : (makeId env pfx k).length ≠ 0 := by
    simp only [makeId, String.length_append]
    have h1 : "-".length = 1 := by decide
    omega
  have h2 : makeId env pfx k ≠ "" := by
    intro h3
    rw [h3] at h
    exact h rfl
  simp [truthy, h2]

/-- The validation `if (!act || !act.type) return;` for a present message. -/
theorem onAction_drop (env : Env) (sv : Server) (act : Action) (h : truthy act.type = false) :
    onAction env sv (some act) = (sv, []) := by
  simp [onAction, h]

/-- The normal flow in closed form. -/
theorem onAction_store (env : Env) (sv : Server) (act : Action) (ht : truthy act.type = true)
    (hne : act.type ≠ some "erase-stroke-request") :
    onAction env sv (some act) =
      ({ actions := sv.actions ++ [ensureId env sv.tick act],
         tick := if truthy act.id then sv.tick else sv.tick + 1 },
       [ensureId env sv.tick act]) := by
  simp [onAction, ht, ensureId_type, hne]

/-- Whatever the message, the history after the handler is the history before
followed by what was broadcast. -/
theorem onAction_actions (env : Env) (sv : Server) (msg : Option Action) :
    (onAction env sv msg).1.actions = sv.actions ++ (onAction env sv msg).2 := by
  cases msg with
  | none => simp [onAction]
  | some act =>
    by_cases ht : truthy act.type = true
    · by_cases he : act.type = some "erase-stroke-request"
      · rw [onAction_erase env sv act he]
      · rw [onAction_store env sv act ht he]
    · rw [onAction_drop env sv act (by simpa using ht)]
      simp

/-- Nothing the handler broadcasts has type `erase-stroke-request`. -/
theorem onAction_broadcast_type (env : Env) (sv : Server) (msg : Option Action) (a : Action)
    (ha : a ∈ (onAction env sv msg).2) : a.type ≠ some "erase-stroke-request" := by
  cases msg with
  | none => simp [onAction] at ha
  | some act =>
    by_cases ht : truthy act.type = true
    · by_cases he : act.type = some "erase-stroke-request"
      · rw [onAction_erase env sv act he] at ha
        rw [type_of_mem_tombstones _ _ _ _ ha]
        decide
      · rw [onAction_store env sv act ht he] at ha
        simp only [List.mem_singleton] at ha
        rw [ha, ensureId_type]
        exact he
    · rw [onAction_drop env sv act (by simpa using ht)] at ha
      simp at ha

/-- The history after one message, in terms of what the message broadcast. -/
theorem step_actions (env : Env) (sv : Server) (m : Msg) :
    (step env sv m).1.actions =
      if m = Msg.clearHistory then [] else sv.actions ++ (step env sv m).2 := by
  cases m with
  | action act => simp [step, onAction_actions]
  | clearHistory => simp [step, onClearHistory]

theorem run_actions_foldl (env : Env) (sv : Server) (msgs : List Msg) :
    (run env sv msgs).1.actions =
      (run env sv msgs).2.foldl
        (fun acc e => if e.1 = Msg.clearHistory then [] else acc ++ e.2) sv.actions := by
  induction msgs generalizing sv with
  | nil => simp [run]
  | cons m ms ih =>
    simp only [run, List.foldl_cons]
    rw [ih, step_actions]

/-- The log of a run has one entry per message, in order. -/
theorem run_log_msgs (env : Env) (sv : Server) (msgs : List Msg) :
    (run env sv msgs).2.map Prod.fst = msgs := by
  induction msgs generalizing sv with
  | nil => simp [run]
  | cons m ms ih => simp [run, ih]

/-- A run over `ms1 ++ ms2` is the run over `ms2` from where the run over `ms1`
ended, the logs concatenated. -/
theorem run_append (env : Env) (sv : Server) (ms1 ms2 : List Msg) :
    run env sv (ms1 ++ ms2) =
      ((run env (run env sv ms1).1 ms2).1,
       (run env sv ms1).2 ++ (run env (run env sv ms1).1 ms2).2) := by
  induction ms1 generalizing sv with
  | nil => simp [run]
  | cons m ms ih => simp [run, ih]

theorem foldl_sinceClear_no_clear (log : List (Msg × List Action)) (acc : List Action)
    (h : ∀ e ∈ log, e.1 ≠ Msg.clearHistory) :
    log.foldl (fun acc e => if e.1 = Msg.clearHistory then [] else acc ++ e.2) acc =
      acc ++ (log.map Prod.snd).flatten := by
  induction log generalizing acc with
  | nil => simp
  | cons e t ih =>
    have he : e.1 ≠ Msg.clearHistory := h e (List.mem_cons_self _ _)
    simp only [List.foldl_cons, he, if_false, List.map_cons, List.flatten_cons]
    rw [ih _ (fun x hx => h x (List.mem_cons_of_mem _ hx)), List.append_assoc]

/-- `broadcastSinceClear` of a log without clear request: every broadcast. -/
theorem broadcastSinceClear_no_clear (log : List (Msg × List Action))
    (h : ∀ e ∈ log, e.1 ≠ Msg.clearHistory) :
    broadcastSinceClear log = (log.map Prod.snd).flatten := by
  simp [broadcastSinceClear, foldl_sinceClear_no_clear log [] h]

/-- `broadcastSinceClear` of a log whose last clear request is the entry `(clearHistory, b)`:
the broadcasts of the entries after it. -/
theorem broadcastSinceClear_after_clear (pre post : List (Msg × List Action))
    (b : List Action) (h : ∀ e ∈ post, e.1 ≠ Msg.clearHistory) :
    broadcastSinceClear (pre ++ (Msg.clearHistory, b) :: post) =
      (post.map Prod.snd).flatten := by
  simp [broadcastSinceClear, List.foldl_append, foldl_sinceClear_no_clear post [] h]

theorem step_noEraseRequest (env : Env) (sv : Server) (m : Msg)
    (h : NoEraseRequest sv.actions) : NoEraseRequest (step env sv m).1.actions := by
  cases m with
  | clearHistory => intro a ha; simp [step, onClearHistory] at ha
  | action act =>
    intro a ha
    simp only [step] at ha
    rw [onAction_actions] at ha
    rcases List.mem_append.mp ha with h1 | h1
    · exact h a h1
    · exact onAction_broadcast_type env sv act a h1

theorem run_noEraseRequest (env : Env) (sv : Server) (msgs : List Msg)
    (h : NoEraseRequest sv.actions) : NoEraseRequest (run env sv msgs).1.actions := by
  induction msgs generalizing sv with
  | nil => simpa [run] using h
  | cons m ms ih =>
    simp only [run]
    exact ih _ (step_noEraseRequest env sv m h)

theorem noEraseRequest_init : NoEraseRequest Server.init.actions := by
  intro a ha
  simp [Server.init] at ha

/-! ## C5: replay convergence -/

/-- C5: after any sequence of inbound messages processed from the empty history,
the `init` payload of a client connecting then is the current history; that
history is, in order, exactly what was broadcast since the most recent
`clear-history` request (its `clear` marker excluded); and it holds no
`erase-stroke-request`. -/
theorem C5_replay_convergence (env : Env) (msgs : List Msg) :
    onConnection (run env Server.init msgs).1 = (run env Server.init msgs).1.actions ∧
    (run env Server.init msgs).1.actions = broadcastSinceClear (run env Server.init msgs).2 ∧
    (∀ a ∈ onConnection (run env Server.init msgs).1, a.type ≠ some "erase-stroke-request") := by
  refine ⟨rfl, ?_, ?_⟩
  · rw [run_actions_foldl]
    rfl
  · exact run_noEraseRequest env Server.init msgs noEraseRequest_init

/-! ## C6: append-only history -/

/-- C6: for every history and every inbound action message, the history before
is a prefix of the history after, so every earlier action keeps its position
and content; and when the message is an erase-stroke-request, every action
after that prefix is a `delete-stroke`. -/
theorem C6_append_only (env : Env) (sv : Server) (msg : Option Action) :
    sv.actions <+: (onAction env sv msg).1.actions ∧
    (∀ i, i < sv.actions.length → (onAction env sv msg).1.actions[i]? = sv.actions[i]?) ∧
    (∀ act, msg = some act → act.type = some "erase-stroke-request" →
      ∀ a ∈ (onAction env sv msg).1.actions.drop sv.actions.length,
        a.type = some "delete-stroke") := by
  refine ⟨?_, ?_, ?_⟩
  · rw [onAction_actions]
    exact List.prefix_append _ _
  · intro i hi
    rw [onAction_actions]
    exact List.getElem?_append_left hi
  · intro act hm he a ha
    subst hm
    rw [onAction_erase env sv act he] at ha
    simp only [List.drop_left] at ha
    exact type_of_mem_tombstones _ _ _ _ ha

/-! ## C7: the erase request is never stored nor rebroadcast -/

/-- C7: no history reachable from the empty one by `action` and `clear-history`
messages holds an action of type `erase-stroke-request`; and every action
broadcast while an erase-stroke-request is handled is a `delete-stroke`, hence
neither the request as received nor the request with its id assigned. -/
theorem C7_erase_request_ephemeral (env : Env) :
    (∀ msgs, ∀ a ∈ (run env Server.init msgs).1.actions,
      a.type ≠ some "erase-stroke-request") ∧
    (∀ sv act, act.type = some "erase-stroke-request" →
      ∀ b ∈ (onAction env sv (some act)).2,
        b.type = some "delete-stroke" ∧ b ≠ act ∧ b ≠ ensureId env sv.tick act) := by
  refine ⟨fun msgs => run_noEraseRequest env Server.init msgs noEraseRequest_init, ?_⟩
  intro sv act he b hb
  rw [onAction_erase env sv act he] at hb
  have hty := type_of_mem_tombstones _ _ _ _ hb
  refine ⟨hty, ?_, ?_⟩
  · intro hba
    rw [hba, he] at hty
    exact absurd hty (by decide)
  · intro hba
    rw [hba, ensureId_type, he] at hty
    exact absurd hty (by decide)

/-! ## C8: the normal flow -/

/-- C8: for an inbound action whose type tag is present (non-empty) and is not
`erase-stroke-request`, the handler appends exactly one action to the end of the
history and broadcasts exactly one action, the same one: the inbound action with
every attribute other than `id` untouched, with its own id when it arrived with
a (non-empty) one and with the id `makeId('a-')` otherwise; either way the id
is non-empty. -/
theorem C8_store_and_broadcast (env : Env) (sv : Server) (act : Action)
    (ht : truthy act.type = true) (hne : act.type ≠ some "erase-stroke-request") :
    ∃ a, (onAction env sv (some act)).1.actions = sv.actions ++ [a] ∧
      (onAction env sv (some act)).2 = [a] ∧
      a = { act with id := a.id } ∧
      (truthy act.id = true → a = act) ∧
      (truthy act.id = false → a.id = some (makeId env "a-" sv.tick)) ∧
      truthy a.id = true := by
  refine ⟨ensureId env sv.tick act, ?_, ?_, ?_, ?_, ?_, ?_⟩
  · rw [onAction_store env sv act ht hne]
  · rw [onAction_store env sv act ht hne]
  · unfold ensureId; split <;> rfl
  · intro h; simp [ensureId, h]
  · intro h; simp [ensureId, h]
  · by_cases h : truthy act.id = true
    · simp [ensureId, h]
    · simp only [ensureId, h, Bool.false_eq_true, if_false]
      exact truthy_makeId env "a-" sv.tick

/-- C8 instance: a stroke with id `s3` sent to the scenario history. -/
theorem C8_store_and_broadcast_witness :
    truthy (mkStroke "s3" [⟨1, 2⟩] none).type = true ∧
    (mkStroke "s3" [⟨1, 2⟩] none).type ≠ some "erase-stroke-request" ∧
    ∃ a, (onAction env0 sv0 (some (mkStroke "s3" [⟨1, 2⟩] none))).1.actions =
        sv0.actions ++ [a] ∧
      (onAction env0 sv0 (some (mkStroke "s3" [⟨1, 2⟩] none))).2 = [a] ∧
      a = { mkStroke "s3" [⟨1, 2⟩] none with id := a.id } ∧
      (truthy (mkStroke "s3" [⟨1, 2⟩] none).id = true → a = mkStroke "s3" [⟨1, 2⟩] none) ∧
      (truthy (mkStroke "s3" [⟨1, 2⟩] none).id = false →
        a.id = some (makeId env0 "a-" sv0.tick)) ∧
      truthy a.id = true :=
  ⟨by decide, by decide,
    C8_store_and_broadcast env0 sv0 (mkStroke "s3" [⟨1, 2⟩] none) (by decide) (by decide)⟩

/-! ## C9: messages without a type tag -/

/-- C9: an inbound action message that is absent, or whose `type` is absent or
empty, whatever its other fields, leaves the server state (hence the history)
unchanged and broadcasts nothing. -/
theorem C9_untyped_ignored (env : Env) (sv : Server) (msg : Option Action)
    (h : ∀ act, msg = some act → act.type = none ∨ act.type = some "") :
    onAction env sv msg = (sv, []) := by
  cases msg with
  | none => rfl
  | some act =>
    apply onAction_drop
    rcases h act rfl with h1 | h1 <;> rw [h1] <;> rfl

/-- C9 instance: a message with an id, a path and a size but no `type`. -/
theorem C9_untyped_ignored_witness :
    (∀ act, some ({ mkErase [⟨0, 0⟩] (some 20) with type := none, id := some "x" } : Action) =
        some act → act.type = none ∨ act.type = some "") ∧
    onAction env0 sv0 (some { mkErase [⟨0, 0⟩] (some 20) with type := none, id := some "x" }) =
      (sv0, []) :=
  ⟨fun act h => by cases h; exact Or.inl rfl,
    C9_untyped_ignored env0 sv0 _ (fun act h => by cases h; exact Or.inl rfl)⟩

/-! ## C10: clear-history -/

/-- C10: handling `clear-history` leaves the history empty, so the next `init`
payload is empty, and broadcasts exactly one action, of type `clear` with the
(non-empty) id `makeId('clear-')` made at that moment; that marker is not in
the history. -/
theorem C10_clear_resets (env : Env) (sv : Server) :
    (onClearHistory env sv).1.actions = [] ∧
    onConnection (onClearHistory env sv).1 = [] ∧
    ∃ c, (onClearHistory env sv).2 = [c] ∧ c.type = some "clear" ∧
      c.id = some (makeId env "clear-" sv.tick) ∧ truthy c.id = true ∧
      c ∉ (onClearHistory env sv).1.actions := by
  refine ⟨rfl, rfl, mkClear env sv.tick, rfl, rfl, rfl, truthy_makeId env "clear-" sv.tick, ?_⟩
  simp [onClearHistory]

/-! ## C11: visibility after an erase request -/

theorem mem_visible (h : List Action) (s : Action) :
    s ∈ visible h ↔ s ∈ h ∧ s.type = some "stroke" ∧ ¬ Tombstoned h s.id := by
  simp only [visible, List.mem_filter, Bool.and_eq_true, decide_eq_true_eq, Bool.not_eq_true',
    Tombstoned]
  constructor
  · rintro ⟨h1, h2, h3⟩
    refine ⟨h1, h2, ?_⟩
    rintro ⟨d, hd, hd1, hd2⟩
    have : h.any (fun d => decide (d.type = some "delete-stroke") &&
        decide (d.targetId = s.id)) = true :=
      List.any_eq_true.mpr ⟨d, hd, by simp [hd1, hd2]⟩
    rw [h3] at this
    exact Bool.false_ne_true this
  · rintro ⟨h1, h2, h3⟩
    refine ⟨h1, h2, ?_⟩
    cases hany : h.any (fun d => decide (d.type = some "delete-stroke") &&
        decide (d.targetId = s.id)) with
    | false => rfl
    | true =>
      obtain ⟨d, hd, hd1⟩ := List.any_eq_true.mp hany
      simp only [Bool.and_eq_true, decide_eq_true_eq] at hd1
      exact absurd ⟨d, hd, hd1.1, hd1.2⟩ h3

theorem mem_tombstones_targetId (env : Env) (k : Nat) (ids : List (Option String))
    (x : Option String) :
    (∃ d ∈ tombstones env k ids, d.targetId = x) ↔ x ∈ ids := by
  constructor
  · rintro ⟨d, hd, hx⟩
    have := List.mem_map_of_mem (fun a => a.targetId) hd
    rw [map_targetId_tombstones] at this
    rw [← hx]
    exact this
  · intro hx
    rw [← map_targetId_tombstones env k ids] at hx
    obtain ⟨d, hd, hd2⟩ := List.mem_map.mp hx
    exact ⟨d, hd, hd2⟩

/-- After tombstones for `ids` are appended, an id is tombstoned exactly when it
was already or it is one of `ids`. -/
theorem tombstoned_append_tombstones (env : Env) (k : Nat) (h : List Action)
    (ids : List (Option String)) (x : Option String) :
    Tombstoned (h ++ tombstones env k ids) x ↔ Tombstoned h x ∨ x ∈ ids := by
  constructor
  · rintro ⟨d, hd, hd1, hd2⟩
    rcases List.mem_append.mp hd with hin | hin
    · exact Or.inl ⟨d, hin, hd1, hd2⟩
    · exact Or.inr ((mem_tombstones_targetId env k ids x).mp ⟨d, hin, hd2⟩)
  · rintro (⟨d, hd, hd1, hd2⟩ | hx)
    · exact ⟨d, List.mem_append_left _ hd, hd1, hd2⟩
    · obtain ⟨d, hd, hd2⟩ := (mem_tombstones_targetId env k ids x).mpr hx
      exact ⟨d, List.mem_append_right _ hd, type_of_mem_tombstones _ _ _ _ hd, hd2⟩

theorem mem_visible_append_tombstones (env : Env) (k : Nat) (h : List Action)
    (ids : List (Option String)) (s : Action) :
    s ∈ visible (h ++ tombstones env k ids) ↔ s ∈ visible h ∧ s.id ∉ ids := by
  rw [mem_visible, mem_visible, tombstoned_append_tombstones]
  constructor
  · rintro ⟨h1, h2, h3⟩
    rcases List.mem_append.mp h1 with hin | hin
    · exact ⟨⟨hin, h2, fun ht => h3 (Or.inl ht)⟩, fun hx => h3 (Or.inr hx)⟩
    · have := type_of_mem_tombstones _ _ _ _ hin
      rw [h2] at this
      exact absurd this (by decide)
  · rintro ⟨⟨h1, h2, h3⟩, h4⟩
    refine ⟨List.mem_append_left _ h1, h2, ?_⟩
    rintro (ht | hx)
    · exact h3 ht
    · exact h4 hx

/-- The visible strokes after tombstones for `ids` are appended: the visible
strokes before, those with an id in `ids` removed, in the same order. -/
theorem visible_append_tombstones (env : Env) (k : Nat) (h : List Action)
    (ids : List (Option String)) :
    visible (h ++ tombstones env k ids) = (visible h).filter (fun s => decide (s.id ∉ ids)) := by
  have key : ∀ a ∈ h ++ tombstones env k ids,
      (decide (a.type = some "stroke") &&
        !((h ++ tombstones env k ids).any (fun d => decide (d.type = some "delete-stroke") &&
          decide (d.targetId = a.id)))) =
      (decide (a.id ∉ ids) && (decide (a.type = some "stroke") &&
        !(h.any (fun d => decide (d.type = some "delete-stroke") &&
          decide (d.targetId = a.id))))) := by
    intro a ha
    have h1 := mem_visible_append_tombstones env k h ids a
    simp only [visible, List.mem_filter] at h1
    rw [Bool.eq_iff_iff]
    simp only [Bool.and_eq_true, decide_eq_true_eq]
    constructor
    · intro hl
      have h2 := h1.mp ⟨ha, by simpa using hl⟩
      exact ⟨h2.2, by simpa using h2.1.2⟩
    · rintro ⟨hr1, hr2⟩
      by_cases hin : a ∈ h
      · have h2 := h1.mpr ⟨⟨hin, by simpa using hr2⟩, hr1⟩
        simpa using h2.2
      · have hT : a ∈ tombstones env k ids := by
          rcases List.mem_append.mp ha with h3 | h3
          · exact absurd h3 hin
          · exact h3
        have := type_of_mem_tombstones _ _ _ _ hT
        rw [hr2.1] at this
        exact absurd this (by decide)
  have hT : (tombstones env k ids).filter (fun s => decide (s.id ∉ ids) &&
      (decide (s.type = some "stroke") &&
        !(h.any (fun d => decide (d.type = some "delete-stroke") &&
          decide (d.targetId = s.id))))) = [] := by
    apply List.filter_eq_nil_iff.mpr
    intro a ha
    have := type_of_mem_tombstones _ _ _ _ ha
    simp [this]
  unfold visible
  rw [List.filter_congr key, List.filter_filter, List.filter_append, hT, List.append_nil]

theorem eq_of_strokeIds_nodup (h : List Action) (hn : (strokeIds h).Nodup) (s t : Action)
    (hs : s ∈ h) (hst : s.type = some "stroke") (ht : t ∈ h) (htt : t.type = some "stroke")
    (hid : s.id = t.id) : s = t := by
  unfold strokeIds at hn
  apply List.inj_on_of_nodup_map hn
  · exact List.mem_filter.mpr ⟨hs, by simpa using hst⟩
  · exact List.mem_filter.mpr ⟨ht, by simpa using htt⟩
  · exact hid

/-- C11: after an erase-stroke-request is handled, no visible stroke is one the
request hits; and when the ids of the stroke actions of the history are
pairwise distinct, the visible strokes after are the visible strokes before
with exactly the hit ones removed (in the same order). -/
theorem C11_visible_after_erase (env : Env) (sv : Server) (act : Action)
    (h : act.type = some "erase-stroke-request") :
    (∀ s ∈ visible (onAction env sv (some act)).1.actions, resolverHit act s = false) ∧
    ((strokeIds sv.actions).Nodup →
      visible (onAction env sv (some act)).1.actions =
        (visible sv.actions).filter (fun s => !resolverHit act s)) := by
  rw [onAction_erase env sv act h]
  simp only [visible_append_tombstones]
  constructor
  · intro s hs
    obtain ⟨hv, hnot⟩ := List.mem_filter.mp hs
    obtain ⟨h1, h2, h3⟩ := (mem_visible _ _).mp hv
    cases hhit : resolverHit act s with
    | false => rfl
    | true =>
      have : s.id ∈ eraseIds sv.actions act :=
        (mem_eraseIds _ _ _).mpr ⟨s, h1, h2, h3, hhit, rfl⟩
      simp [this] at hnot
  · intro hn
    apply List.filter_congr
    intro s hv
    obtain ⟨h1, h2, h3⟩ := (mem_visible _ _).mp hv
    rw [Bool.eq_iff_iff]
    simp only [decide_eq_true_eq, Bool.not_eq_true', mem_eraseIds]
    constructor
    · intro hno
      cases hhit : resolverHit act s with
      | false => rfl
      | true => exact absurd ⟨s, h1, h2, h3, hhit, rfl⟩ hno
    · rintro hfalse ⟨t, ht1, ht2, _, ht4, ht5⟩
      have := eq_of_strokeIds_nodup sv.actions hn t s ht1 ht2 h1 h2 ht5
      rw [this, hfalse] at ht4
      exact Bool.false_ne_true ht4

/-- C11 instance: the scenario of the specification; the stroke ids `s1`, `s2`
are distinct. -/
theorem C11_visible_after_erase_witness :
    erase0.type = some "erase-stroke-request" ∧ (strokeIds sv0.actions).Nodup ∧
    (∀ s ∈ visible (onAction env0 sv0 (some erase0)).1.actions, resolverHit erase0 s = false) ∧
    visible (onAction env0 sv0 (some erase0)).1.actions =
      (visible sv0.actions).filter (fun s => !resolverHit erase0 s) :=
  ⟨rfl, by decide, (C11_visible_after_erase env0 sv0 erase0 rfl).1,
    (C11_visible_after_erase env0 sv0 erase0 rfl).2 (by decide)⟩

/-! ## C12: empty paths -/

theorem resolverHit_empty_eraser (act s : Action) (h : act.path = none ∨ act.path = some []) :
    resolverHit act s = false := by
  cases hh : resolverHit act s with
  | false => rfl
  | true =>
    unfold resolverHit at hh
    obtain ⟨_, _, q, hq, _⟩ := (hitTest_iff _ _ _).mp hh
    rcases h with h | h <;> rw [h] at hq <;> simp at hq

theorem resolverHit_empty_stroke (act s : Action) (h : s.path = none ∨ s.path = some []) :
    resolverHit act s = false := by
  cases hh : resolverHit act s with
  | false => rfl
  | true =>
    unfold resolverHit at hh
    obtain ⟨p, hp, _⟩ := (hitTest_iff _ _ _).mp hh
    rcases h with h | h <;> rw [h] at hp <;> simp at hp

/-- The erase request of the scenario against `svDup`: one tombstone, for `s1`. -/
theorem eraseIds_svDup : eraseIds svDup.actions erase0 = [some "s1"] := by
  simp [eraseIds, toDelete, strokeCandidates, deleted, setOfList, setHas, setAdd, svDup, erase0,
    mkStroke, mkErase, hitTest, hitOuter, hitInner, orElse, dist2]
  norm_num

/-- C12 (as stated, refuted): in the history `svDup` the first stroke has an
empty path, yet the erase request at the origin produces a tombstone whose
`targetId` is that stroke's id, because the second stroke carries the same id
and is hit. -/
theorem C12_empty_path_stroke_tombstoned :
    mkStroke "s1" [] none ∈ svDup.actions ∧
    (mkStroke "s1" [] none).type = some "stroke" ∧
    (mkStroke "s1" [] none).path = some [] ∧
    (mkStroke "s1" [] none).id ∈
      (onAction env0 svDup (some erase0)).2.map (fun a => a.targetId) := by
  refine ⟨by simp [svDup], rfl, rfl, ?_⟩
  rw [onAction_erase env0 svDup erase0 rfl, map_targetId_tombstones, eraseIds_svDup]
  simp [mkStroke]

/-- C12 (amended): an erase-stroke-request whose path is empty or absent
broadcasts nothing and leaves the history unchanged; and for every
erase-stroke-request a stroke whose path is empty or absent has no hit, so its
id is the target of a tombstone of the request only when another stroke action
of the history with the same id is hit, hence never when the ids of the stroke
actions of the history are pairwise distinct. -/
theorem C12_empty_paths (env : Env) (sv : Server) (act : Action)
    (h : act.type = some "erase-stroke-request") :
    ((act.path = none ∨ act.path = some []) →
      (onAction env sv (some act)).2 = [] ∧
      (onAction env sv (some act)).1.actions = sv.actions) ∧
    (∀ s, (s.path = none ∨ s.path = some []) →
      resolverHit act s = false ∧
      (s.id ∈ (onAction env sv (some act)).2.map (fun a => a.targetId) →
        ∃ t ∈ sv.actions, t.type = some "stroke" ∧ t.id = s.id ∧ t ≠ s ∧
          resolverHit act t = true) ∧
      ((strokeIds sv.actions).Nodup → s ∈ sv.actions → s.type = some "stroke" →
        s.id ∉ (onAction env sv (some act)).2.map (fun a => a.targetId))) := by
  rw [onAction_erase env sv act h]
  simp only [map_targetId_tombstones]
  have hother : ∀ s, (s.path = none ∨ s.path = some []) → s.id ∈ eraseIds sv.actions act →
      ∃ t ∈ sv.actions, t.type = some "stroke" ∧ t.id = s.id ∧ t ≠ s ∧
        resolverHit act t = true := by
    intro s hs hin
    obtain ⟨t, ht1, ht2, _, ht4, ht5⟩ := (mem_eraseIds _ _ _).mp hin
    refine ⟨t, ht1, ht2, ht5, ?_, ht4⟩
    intro hts
    rw [hts, resolverHit_empty_stroke act s hs] at ht4
    exact Bool.false_ne_true ht4
  refine ⟨?_, ?_⟩
  · intro hp
    have hnil : eraseIds sv.actions act = [] := by
      apply List.eq_nil_iff_forall_not_mem.mpr
      intro x hx
      obtain ⟨t, _, _, _, ht4, _⟩ := (mem_eraseIds _ _ _).mp hx
      rw [resolverHit_empty_eraser act t hp] at ht4
      exact Bool.false_ne_true ht4
    rw [hnil]
    simp [tombstones]
  · intro s hs
    refine ⟨resolverHit_empty_stroke act s hs, hother s hs, ?_⟩
    intro hn hin hst hmem
    obtain ⟨t, ht1, ht2, ht3, ht4, _⟩ := hother s hs hmem
    exact ht4 (eq_of_strokeIds_nodup sv.actions hn t s ht1 ht2 hin hst ht3)

/-- C12 instance: an erase request with an empty path against the scenario
history broadcasts nothing; and a stroke with an empty path is not hit by it. -/
theorem C12_empty_paths_witness :
    (mkErase [] (some 20)).type = some "erase-stroke-request" ∧
    (mkErase [] (some 20)).path = some [] ∧
    ((onAction env0 sv0 (some (mkErase [] (some 20)))).2 = [] ∧
      (onAction env0 sv0 (some (mkErase [] (some 20)))).1.actions = sv0.actions) ∧
    resolverHit (mkErase [] (some 20)) (mkStroke "s1" [] none) = false :=
  ⟨rfl, rfl, (C12_empty_paths env0 sv0 (mkErase [] (some 20)) rfl).1 (Or.inr rfl),
    ((C12_empty_paths env0 sv0 (mkErase [] (some 20)) rfl).2 (mkStroke "s1" [] none)
      (Or.inr rfl)).1⟩

/-! ## C13: the eraser radius -/

/-- The erase branch uses `eraserRadius act` as the radius of every hit test. -/
theorem eraseIds_eq_toDelete (h : List Action) (act : Action) :
    eraseIds h act = toDelete (act.path.getD []) (eraserRadius act) (strokeCandidates h) :=
  rfl

/-- C13 (as stated, refuted): a request that carries the size `0` gets the
radius 10, not `0 / 2`. -/
theorem C13_zero_size_radius :
    (mkErase [] (some 0)).size = some 0 ∧
    eraserRadius (mkErase [] (some 0)) = 10 ∧
    eraserRadius (mkErase [] (some 0)) ≠ 0 / 2 := by
  have h : eraserRadius (mkErase [] (some 0)) = 10 := by
    simp [eraserRadius, mkErase, orElse]
    norm_num
  refine ⟨rfl, h, ?_⟩
  rw [h]
  norm_num

/-- C13 (amended): the radius used by the resolver is `size / 2` whenever the
request carries a non-zero size, and is 10 when the size is absent or zero. -/
theorem C13_eraser_radius (act : Action) :
    (∀ q, act.size = some q → q ≠ 0 → eraserRadius act = q / 2) ∧
    ((act.size = none ∨ act.size = some 0) → eraserRadius act = 10) ∧
    (∀ h, eraseIds h act =
      toDelete (act.path.getD []) (eraserRadius act) (strokeCandidates h)) := by
  refine ⟨?_, ?_, fun h => rfl⟩
  · intro q hq hne
    simp [eraserRadius, hq, orElse, hne]
  · intro hs
    rcases hs with hs | hs <;> simp [eraserRadius, hs, orElse] <;> norm_num

/-! ## C14: every stored action has a type tag and an id -/

theorem truthy_ensureId_id (env : Env) (k : Nat) (act : Action) :
    truthy (ensureId env k act).id = true := by
  by_cases h : truthy act.id = true
  · simp [ensureId, h]
  · simp only [ensureId, h, Bool.false_eq_true, if_false]
    exact truthy_makeId env "a-" k

theorem wellTagged_tombstones (env : Env) (k : Nat) (ids : List (Option String)) :
    WellTagged (tombstones env k ids) := by
  induction ids generalizing k with
  | nil => intro a ha; simp [tombstones] at ha
  | cons i t ih =>
    intro a ha
    simp only [tombstones, List.mem_cons] at ha
    rcases ha with ha | ha
    · subst ha
      exact ⟨rfl, truthy_makeId env "del-" k⟩
    · exact ih _ a ha

/-- Everything the `action` handler broadcasts has a non-empty type and id. -/
theorem onAction_broadcast_wellTagged (env : Env) (sv : Server) (msg : Option Action) :
    WellTagged (onAction env sv msg).2 := by
  intro a ha
  cases msg with
  | none => simp [onAction] at ha
  | some act =>
    by_cases ht : truthy act.type = true
    · by_cases he : act.type = some "erase-stroke-request"
      · rw [onAction_erase env sv act he] at ha
        exact wellTagged_tombstones _ _ _ a ha
      · rw [onAction_store env sv act ht he] at ha
        simp only [List.mem_singleton] at ha
        rw [ha, ensureId_type]
        exact ⟨ht, truthy_ensureId_id env sv.tick act⟩
    · rw [onAction_drop env sv act (by simpa using ht)] at ha
      simp at ha

theorem step_wellTagged (env : Env) (sv : Server) (m : Msg) (h : WellTagged sv.actions) :
    WellTagged (step env sv m).1.actions := by
  cases m with
  | clearHistory => intro a ha; simp [step, onClearHistory] at ha
  | action act =>
    intro a ha
    simp only [step] at ha
    rw [onAction_actions] at ha
    rcases List.mem_append.mp ha with h1 | h1
    · exact h a h1
    · exact onAction_broadcast_wellTagged env sv act a h1

theorem run_wellTagged (env : Env) (sv : Server) (msgs : List Msg) (h : WellTagged sv.actions) :
    WellTagged (run env sv msgs).1.actions := by
  induction msgs generalizing sv with
  | nil => simpa [run] using h
  | cons m ms ih =>
    simp only [run]
    exact ih _ (step_wellTagged env sv m h)

/-- C14: in every history reachable from the empty one by `action` and
`clear-history` messages, every action has a non-empty type tag and a non-empty
id; the ids made by `makeId` are non-empty because they contain the separator
`-` (`truthy_makeId`). -/
theorem C14_reachable_well_tagged (env : Env) (msgs : List Msg) (a : Action)
    (ha : a ∈ (run env Server.init msgs).1.actions) :
    (∃ t, a.type = some t ∧ t ≠ "") ∧ (∃ i, a.id = some i ∧ i ≠ "") := by
  have hw : WellTagged (run env Server.init msgs).1.actions :=
    run_wellTagged env Server.init msgs (fun b hb => by simp [Server.init] at hb)
  obtain ⟨h1, h2⟩ := hw a ha
  constructor
  · cases ht : a.type with
    | none => rw [ht] at h1; exact absurd h1 (by decide)
    | some t => rw [ht] at h1; exact ⟨t, rfl, by simpa [truthy] using h1⟩
  · cases hi : a.id with
    | none => rw [hi] at h2; exact absurd h2 (by decide)
    | some i => rw [hi] at h2; exact ⟨i, rfl, by simpa [truthy] using h2⟩

/-- C14 instance: a stroke sent without id to the empty history is stored with a
type and an id. -/
theorem C14_reachable_well_tagged_witness :
    ensureId env0 0 { mkStroke "" [] none with id := none } ∈
      (run env0 Server.init
        [Msg.action (some { mkStroke "" [] none with id := none })]).1.actions ∧
    (∃ t, (ensureId env0 0 { mkStroke "" [] none with id := none }).type = some t ∧ t ≠ "") ∧
    (∃ i, (ensureId env0 0 { mkStroke "" [] none with id := none }).id = some i ∧ i ≠ "") :=
  ⟨by decide,
    C14_reachable_well_tagged env0
      [Msg.action (some { mkStroke "" [] none with id := none })]
      (ensureId env0 0 { mkStroke "" [] none with id := none }) (by decide)⟩

/-! ## C15: the squared distance -/

theorem dist2_eq (a b : Point) : dist2 a b = (a.x - b.x) ^ 2 + (a.y - b.y) ^ 2 := by
  simp only [dist2]
  ring

/-- C15: `dist2 a b` is `(a.x - b.x)² + (a.y - b.y)²` (no square root); it is
symmetric, non-negative, and zero exactly when `a = b`; and the hit test of one
stroke point against one eraser point is `dist2 ≤ threshold²` (equality
included). -/
theorem C15_dist2 (a b : Point) :
    dist2 a b = (a.x - b.x) ^ 2 + (a.y - b.y) ^ 2 ∧
    dist2 a b = dist2 b a ∧
    0 ≤ dist2 a b ∧
    (dist2 a b = 0 ↔ a = b) ∧
    (∀ r s, hitInner r s a [b] = true ↔ dist2 a b ≤ (r + orElse s.size 4) ^ 2) := by
  refine ⟨dist2_eq a b, ?_, ?_, ?_, ?_⟩
  · rw [dist2_eq, dist2_eq]; ring
  · rw [dist2_eq]; positivity
  · rw [dist2_eq]
    constructor
    · intro h0
      have hx : (a.x - b.x) ^ 2 = 0 := by nlinarith [sq_nonneg (a.x - b.x), sq_nonneg (a.y - b.y)]
      have hy : (a.y - b.y) ^ 2 = 0 := by nlinarith [sq_nonneg (a.x - b.x), sq_nonneg (a.y - b.y)]
      have hx1 : a.x = b.x := by
        have := pow_eq_zero_iff (two_ne_zero) |>.mp hx
        linarith
      have hy1 : a.y = b.y := by
        have := pow_eq_zero_iff (two_ne_zero) |>.mp hy
        linarith
      cases a
      cases b
      simp only [Point.mk.injEq]
      exact ⟨hx1, hy1⟩
    · intro hab
      rw [hab]
      simp
  · intro r s
    rw [hitInner_iff]
    simp

/-! ## C16: splitting the eraser path -/

theorem resolverHit_append (r rP rQ s : Action) (P Q : List Point)
    (hr : r.path = some (P ++ Q)) (hP : rP.path = some P) (hQ : rQ.path = some Q)
    (hsP : rP.size = r.size) (hsQ : rQ.size = r.size) :
    resolverHit r s = true ↔ resolverHit rP s = true ∨ resolverHit rQ s = true := by
  simp only [resolverHit, hitTest_iff, hr, hP, hQ, hsP, hsQ, Option.getD_some, List.mem_append]
  constructor
  · rintro ⟨p, hp, q, hq | hq, hd⟩
    · exact Or.inl ⟨p, hp, q, hq, hd⟩
    · exact Or.inr ⟨p, hp, q, hq, hd⟩
  · rintro (⟨p, hp, q, hq, hd⟩ | ⟨p, hp, q, hq, hd⟩)
    · exact ⟨p, hp, q, Or.inl hq, hd⟩
    · exact ⟨p, hp, q, Or.inr hq, hd⟩

/-- The ids tombstoned by one request over `P ++ Q` are those tombstoned by a
request over `P` or by a following request over `Q`. -/
theorem mem_eraseIds_append (env : Env) (k : Nat) (h : List Action) (r rP rQ : Action)
    (P Q : List Point) (hr : r.path = some (P ++ Q)) (hP : rP.path = some P)
    (hQ : rQ.path = some Q) (hsP : rP.size = r.size) (hsQ : rQ.size = r.size)
    (x : Option String) :
    x ∈ eraseIds h r ↔
      x ∈ eraseIds h rP ∨ x ∈ eraseIds (h ++ tombstones env k (eraseIds h rP)) rQ := by
  have hsplit := fun s => resolverHit_append r rP rQ s P Q hr hP hQ hsP hsQ
  constructor
  · intro hx
    obtain ⟨s, h1, h2, h3, h4, h5⟩ := (mem_eraseIds _ _ _).mp hx
    rcases (hsplit s).mp h4 with hp | hq
    · exact Or.inl ((mem_eraseIds _ _ _).mpr ⟨s, h1, h2, h3, hp, h5⟩)
    · by_cases hin : s.id ∈ eraseIds h rP
      · rw [h5] at hin
        exact Or.inl hin
      · right
        refine (mem_eraseIds _ _ _).mpr ⟨s, List.mem_append_left _ h1, h2, ?_, hq, h5⟩
        rw [tombstoned_append_tombstones]
        rintro (ht | ht)
        · exact h3 ht
        · exact hin ht
  · rintro (hx | hx)
    · obtain ⟨s, h1, h2, h3, h4, h5⟩ := (mem_eraseIds _ _ _).mp hx
      exact (mem_eraseIds _ _ _).mpr ⟨s, h1, h2, h3, (hsplit s).mpr (Or.inl h4), h5⟩
    · obtain ⟨s, h1, h2, h3, h4, h5⟩ := (mem_eraseIds _ _ _).mp hx
      rw [tombstoned_append_tombstones] at h3
      rcases List.mem_append.mp h1 with hin | hin
      · exact (mem_eraseIds _ _ _).mpr
          ⟨s, hin, h2, fun ht => h3 (Or.inl ht), (hsplit s).mpr (Or.inr h4), h5⟩
      · have := type_of_mem_tombstones _ _ _ _ hin
        rw [h2] at this
        exact absurd this (by decide)

/-- C16: for every history, one erase-stroke-request with path `P ++ Q`
tombstones the same set of stroke ids as a request with path `P` followed by a
request with path `Q` of the same size; so the set of ids that are the
`targetId` of a `delete-stroke` action of the history is the same after both. -/
theorem C16_erase_path_split (env : Env) (sv : Server) (r rP rQ : Action) (P Q : List Point)
    (ht : r.type = some "erase-stroke-request") (htP : rP.type = some "erase-stroke-request")
    (htQ : rQ.type = some "erase-stroke-request")
    (hr : r.path = some (P ++ Q)) (hP : rP.path = some P) (hQ : rQ.path = some Q)
    (hsP : rP.size = r.size) (hsQ : rQ.size = r.size) :
    (∀ x, x ∈ (onAction env sv (some r)).2.map (fun a => a.targetId) ↔
      x ∈ ((onAction env sv (some rP)).2 ++
        (onAction env (onAction env sv (some rP)).1 (some rQ)).2).map (fun a => a.targetId)) ∧
    (∀ x, Tombstoned (onAction env sv (some r)).1.actions x ↔
      Tombstoned (onAction env (onAction env sv (some rP)).1 (some rQ)).1.actions x) := by
  rw [onAction_erase env sv r ht, onAction_erase env sv rP htP, onAction_erase env _ rQ htQ]
  simp only [List.map_append, map_targetId_tombstones, List.mem_append,
    tombstoned_append_tombstones]
  constructor
  · intro x
    exact mem_eraseIds_append env _ sv.actions r rP rQ P Q hr hP hQ hsP hsQ x
  · intro x
    rw [mem_eraseIds_append env _ sv.actions r rP rQ P Q hr hP hQ hsP hsQ x, or_assoc]

/-- C16 instance: the scenario history, the eraser path `[(0,0), (100,100)]` split
in two. -/
theorem C16_erase_path_split_witness :
    (∀ x, x ∈ (onAction env0 sv0 (some (mkErase [⟨0, 0⟩, ⟨100, 100⟩] (some 20)))).2.map
        (fun a => a.targetId) ↔
      x ∈ ((onAction env0 sv0 (some (mkErase [⟨0, 0⟩] (some 20)))).2 ++
        (onAction env0 (onAction env0 sv0 (some (mkErase [⟨0, 0⟩] (some 20)))).1
          (some (mkErase [⟨100, 100⟩] (some 20)))).2).map (fun a => a.targetId)) ∧
    (∀ x, Tombstoned
        (onAction env0 sv0 (some (mkErase [⟨0, 0⟩, ⟨100, 100⟩] (some 20)))).1.actions x ↔
      Tombstoned (onAction env0 (onAction env0 sv0 (some (mkErase [⟨0, 0⟩] (some 20)))).1
          (some (mkErase [⟨100, 100⟩] (some 20)))).1.actions x) :=
  C16_erase_path_split env0 sv0 (mkErase [⟨0, 0⟩, ⟨100, 100⟩] (some 20))
    (mkErase [⟨0, 0⟩] (some 20)) (mkErase [⟨100, 100⟩] (some 20)) [⟨0, 0⟩] [⟨100, 100⟩]
    rfl rfl rfl rfl rfl rfl rfl rfl

/-! ## C17: monotonicity of erasure -/

theorem orElse_nonneg (v : Option ℚ) (d : ℚ) (hd : 0 ≤ d) (hv : ∀ q, v = some q → 0 ≤ q) :
    0 ≤ orElse v d := by
  unfold orElse
  split
  · exact hd
  · rename_i q
    split
    · exact hd
    · exact hv q rfl

theorem resolverHit_mono (r r2 s : Action) (sz sz2 : ℚ) (hsz : r.size = some sz)
    (hsz2 : r2.size = some sz2) (hpos : 0 < sz) (hle : sz ≤ sz2)
    (hsub : ∀ q ∈ r.path.getD [], q ∈ r2.path.getD [])
    (hnn : ∀ q, s.size = some q → 0 ≤ q) (hhit : resolverHit r s = true) :
    resolverHit r2 s = true := by
  unfold resolverHit at hhit ⊢
  rw [hitTest_iff] at hhit ⊢
  obtain ⟨p, hp, q, hq, hd⟩ := hhit
  refine ⟨p, hp, q, hsub q hq, le_trans hd ?_⟩
  have hS : 0 ≤ orElse s.size 4 := orElse_nonneg s.size 4 (by norm_num) hnn
  have h1 : orElse r.size 20 = sz := by simp [hsz, orElse, ne_of_gt hpos]
  have hpos2 : 0 < sz2 := lt_of_lt_of_le hpos hle
  have h2 : orElse r2.size 20 = sz2 := by simp [hsz2, orElse, ne_of_gt hpos2]
  rw [h1, h2]
  have ha : 0 ≤ sz / 2 + orElse s.size 4 := by linarith
  have hb : sz / 2 + orElse s.size 4 ≤ sz2 / 2 + orElse s.size 4 := by linarith
  nlinarith

/-- C17: against a history whose stroke sizes are non-negative, if every point
of the path of request `r` occurs in the path of request `r2` and their sizes
satisfy `0 < sz ≤ sz2`, every stroke id tombstoned by `r` is tombstoned by `r2`
against the same history. -/
theorem C17_erase_monotone (env : Env) (sv : Server) (r r2 : Action) (sz sz2 : ℚ)
    (ht : r.type = some "erase-stroke-request") (ht2 : r2.type = some "erase-stroke-request")
    (hsz : r.size = some sz) (hsz2 : r2.size = some sz2) (hpos : 0 < sz) (hle : sz ≤ sz2)
    (hsub : ∀ q ∈ r.path.getD [], q ∈ r2.path.getD [])
    (hnn : ∀ s ∈ sv.actions, s.type = some "stroke" → ∀ q, s.size = some q → 0 ≤ q)
    (x : Option String)
    (hx : x ∈ (onAction env sv (some r)).2.map (fun a => a.targetId)) :
    x ∈ (onAction env sv (some r2)).2.map (fun a => a.targetId) := by
  rw [onAction_erase env sv r ht, map_targetId_tombstones] at hx
  rw [onAction_erase env sv r2 ht2, map_targetId_tombstones]
  obtain ⟨s, h1, h2, h3, h4, h5⟩ := (mem_eraseIds _ _ _).mp hx
  exact (mem_eraseIds _ _ _).mpr
    ⟨s, h1, h2, h3, resolverHit_mono r r2 s sz sz2 hsz hsz2 hpos hle hsub (hnn s h1 h2) h4, h5⟩

/-- The scenario request tombstones exactly `s1` in the scenario history. -/
theorem targets_sv0_erase0 :
    some "s1" ∈ (onAction env0 sv0 (some erase0)).2.map (fun a => a.targetId) := by
  rw [onAction_erase env0 sv0 erase0 rfl, map_targetId_tombstones]
  have hids : eraseIds sv0.actions erase0 = [some "s1"] := by
    simp [eraseIds, toDelete, strokeCandidates, deleted, setOfList, setHas, setAdd, sv0, erase0,
      mkStroke, mkErase, hitTest, hitOuter, hitInner, orElse, dist2]
    norm_num
  rw [hids]
  simp

/-- C17 instance: the scenario request against the same request with one more
eraser point and size 30. -/
theorem C17_erase_monotone_witness :
    (0 : ℚ) < 20 ∧ (20 : ℚ) ≤ 30 ∧
    some "s1" ∈ (onAction env0 sv0 (some erase0)).2.map (fun a => a.targetId) ∧
    some "s1" ∈ (onAction env0 sv0 (some (mkErase [⟨0, 0⟩, ⟨5, 5⟩] (some 30)))).2.map
      (fun a => a.targetId) :=
  ⟨by norm_num, by norm_num, targets_sv0_erase0,
    C17_erase_monotone env0 sv0 erase0 (mkErase [⟨0, 0⟩, ⟨5, 5⟩] (some 30)) 20 30 rfl rfl rfl rfl
      (by norm_num) (by norm_num)
      (by
        intro q hq
        simp only [erase0, mkErase, Option.getD_some, List.mem_singleton] at hq
        simp [mkErase, hq])
      (by
        intro s hs _ q hq
        simp only [sv0, List.mem_cons, List.mem_singleton, List.not_mem_nil, or_false] at hs
        rcases hs with hs | hs <;> rw [hs] at hq <;> simp [mkStroke] at hq)
      (some "s1") targets_sv0_erase0⟩

/-! ## C18: the order of the tombstones -/

theorem foldl_filter_cond (c p : Action → Bool) (l : List Action)
    (init : List (Option String)) :
    (l.filter c).foldl (fun acc s => if p s then setAdd acc s.id else acc) init =
      l.foldl (fun acc s => if (c s && p s) = true then setAdd acc s.id else acc) init := by
  induction l generalizing init with
  | nil => rfl
  | cons a t ih =>
    by_cases hc : c a = true
    · simp only [List.filter_cons, hc, if_true, List.foldl_cons, Bool.true_and, ih]
    · simp only [List.filter_cons, hc, Bool.false_eq_true, if_false, List.foldl_cons,
        Bool.false_and, ih]

/-- The erase branch as one pass over the whole history. -/
theorem eraseIds_eq_foldl (h : List Action) (act : Action) :
    eraseIds h act =
      h.foldl (fun acc s => if isHitCandidate h act s = true then setAdd acc s.id else acc) [] := by
  simp only [eraseIds, toDelete, strokeCandidates]
  rw [foldl_filter_cond]
  rfl

theorem findIdx_congr_mem (p q : Action → Bool) (l : List Action)
    (h : ∀ a ∈ l, p a = q a) : l.findIdx p = l.findIdx q := by
  induction l with
  | nil => rfl
  | cons a t ih =>
    rw [List.findIdx_cons, List.findIdx_cons, h a (List.mem_cons_self _ _),
      ih (fun b hb => h b (List.mem_cons_of_mem _ hb))]

/-- Ids enter the set in the order in which the first action carrying them and
satisfying `g` occurs in the list. -/
theorem pairwise_foldl_setAdd (g : Action → Bool) (l : List Action) :
    (l.foldl (fun acc s => if g s = true then setAdd acc s.id else acc) []).Pairwise
      (fun x y => l.findIdx (fun a => g a && decide (a.id = x)) <
        l.findIdx (fun a => g a && decide (a.id = y))) := by
  induction l using List.reverseRecOn with
  | nil => simp
  | append_singleton l c ih =>
    have hmem : ∀ x, x ∈ l.foldl (fun acc s => if g s = true then setAdd acc s.id else acc) [] ↔
        ∃ s ∈ l, g s = true ∧ s.id = x := by
      intro x
      rw [mem_foldl_toDelete]
      simp
    have hold : ∀ x, x ∈ l.foldl (fun acc s => if g s = true then setAdd acc s.id else acc) [] →
        (l ++ [c]).findIdx (fun a => g a && decide (a.id = x)) =
          l.findIdx (fun a => g a && decide (a.id = x)) ∧
        l.findIdx (fun a => g a && decide (a.id = x)) < l.length := by
      intro x hx
      obtain ⟨s, hs, hg, hid⟩ := (hmem x).mp hx
      have hlt : l.findIdx (fun a => g a && decide (a.id = x)) < l.length :=
        List.findIdx_lt_length_of_exists ⟨s, hs, by simp [hg, hid]⟩
      exact ⟨by rw [List.findIdx_append, if_pos hlt], hlt⟩
    have hkeep : (l.foldl (fun acc s => if g s = true then setAdd acc s.id else acc) []).Pairwise
        (fun x y => (l ++ [c]).findIdx (fun a => g a && decide (a.id = x)) <
          (l ++ [c]).findIdx (fun a => g a && decide (a.id = y))) := by
      refine List.Pairwise.imp_of_mem ?_ ih
      intro x y hx hy hxy
      rw [(hold x hx).1, (hold y hy).1]
      exact hxy
    rw [List.foldl_append]
    simp only [List.foldl_cons, List.foldl_nil]
    by_cases hg : g c = true
    · simp only [hg, if_true]
      unfold setAdd
      split
      · exact hkeep
      · rename_i hnew
        rw [List.pairwise_append]
        refine ⟨hkeep, List.pairwise_singleton _ _, ?_⟩
        intro x hx y hy
        rw [List.mem_singleton] at hy
        subst hy
        rw [(hold x hx).1]
        have hnone : l.findIdx (fun a => g a && decide (a.id = c.id)) = l.length := by
          apply List.findIdx_eq_length_of_false
          intro a ha
          cases hq : (g a && decide (a.id = c.id)) with
          | false => rfl
          | true =>
            simp only [Bool.and_eq_true, decide_eq_true_eq] at hq
            exact absurd ((hmem c.id).mpr ⟨a, ha, hq.1, hq.2⟩) hnew
        rw [List.findIdx_append, hnone, if_neg (Nat.lt_irrefl _)]
        have := (hold x hx).2
        omega
    · simp only [hg, Bool.false_eq_true, if_false]
      exact hkeep

/-- The tombstones of the scenario request against `svOrder`: `b` first, then `a`. -/
theorem eraseIds_svOrder : eraseIds svOrder.actions erase0 = [some "b", some "a"] := by
  simp [eraseIds, toDelete, strokeCandidates, deleted, setOfList, setHas, setAdd, svOrder,
    erase0, mkStroke, mkErase, hitTest, hitOuter, hitInner, orElse, dist2]
  norm_num
  decide

/-- C18 (as stated, refuted): in `svOrder` a stroke carrying id `a` occurs first
(position 0) and the stroke carrying `b` second (position 1), yet the request
at the origin appends and broadcasts the tombstone for `b` before the tombstone
for `a`, because the first stroke carrying `a` is not hit and the third is. -/
theorem C18_order_not_first_occurrence :
    (onAction env0 svOrder (some erase0)).2.map (fun a => a.targetId) = [some "b", some "a"] ∧
    firstStrokeIdx svOrder.actions (some "a") = 0 ∧
    firstStrokeIdx svOrder.actions (some "b") = 1 ∧
    ¬ ((onAction env0 svOrder (some erase0)).2.map (fun a => a.targetId)).Pairwise
        (fun x y => firstStrokeIdx svOrder.actions x < firstStrokeIdx svOrder.actions y) := by
  have h1 : (onAction env0 svOrder (some erase0)).2.map (fun a => a.targetId) =
      [some "b", some "a"] := by
    rw [onAction_erase env0 svOrder erase0 rfl, map_targetId_tombstones, eraseIds_svOrder]
  have ha : firstStrokeIdx svOrder.actions (some "a") = 0 := by decide
  have hb : firstStrokeIdx svOrder.actions (some "b") = 1 := by decide
  refine ⟨h1, ha, hb, ?_⟩
  rw [h1]
  intro hp
  have := List.rel_of_pairwise_cons hp (List.mem_singleton.mpr rfl)
  rw [ha, hb] at this
  omega

/-- C18 (amended): the tombstones of one erase-stroke-request are appended to
the history and broadcast in the same, deterministic order: the order in which
the candidate strokes hit by the request that carry their `targetId`s first
occur in the history; when the ids of the stroke actions of the history are
pairwise distinct this is the order in which the stroke actions carrying the
`targetId`s occur in the history. -/
theorem C18_tombstone_order (env : Env) (sv : Server) (act : Action)
    (h : act.type = some "erase-stroke-request") :
    (onAction env sv (some act)).1.actions = sv.actions ++ (onAction env sv (some act)).2 ∧
    ((onAction env sv (some act)).2.map (fun a => a.targetId)).Pairwise
      (fun x y => firstHitIdx sv.actions act x < firstHitIdx sv.actions act y) ∧
    ((strokeIds sv.actions).Nodup →
      ((onAction env sv (some act)).2.map (fun a => a.targetId)).Pairwise
        (fun x y => firstStrokeIdx sv.actions x < firstStrokeIdx sv.actions y)) := by
  have horder : (eraseIds sv.actions act).Pairwise
      (fun x y => firstHitIdx sv.actions act x < firstHitIdx sv.actions act y) := by
    rw [eraseIds_eq_foldl]
    exact pairwise_foldl_setAdd (isHitCandidate sv.actions act) sv.actions
  rw [onAction_erase env sv act h]
  refine ⟨rfl, ?_, ?_⟩
  · rw [map_targetId_tombstones]
    exact horder
  · intro hn
    rw [map_targetId_tombstones]
    have hsame : ∀ x ∈ eraseIds sv.actions act,
        firstStrokeIdx sv.actions x = firstHitIdx sv.actions act x := by
      intro x hx
      obtain ⟨s, hs1, hs2, hs3, hs4, hs5⟩ := (mem_eraseIds _ _ _).mp hx
      subst hs5
      apply findIdx_congr_mem
      intro a ha
      by_cases hid : a.id = s.id
      · by_cases hty : a.type = some "stroke"
        · have hEq : a = s := eq_of_strokeIds_nodup sv.actions hn a s ha hty hs1 hs2 hid
          have hnd : setHas (deleted sv.actions) s.id = false := by
            simp only [setHas, decide_eq_false_iff_not, mem_deleted]
            exact hs3
          rw [hEq]
          simp [isHitCandidate, hs2, hnd, hs4]
        · simp [isHitCandidate, hty]
      · simp [hid]
    refine List.Pairwise.imp_of_mem ?_ horder
    intro x y hx hy hxy
    rw [hsame x hx, hsame y hy]
    exact hxy

/-- C18 instance: the history `svOrder`, where the order of the tombstones is
`b`, `a`; and the scenario history, whose stroke ids are distinct. -/
theorem C18_tombstone_order_witness :
    erase0.type = some "erase-stroke-request" ∧
    (onAction env0 svOrder (some erase0)).1.actions =
      svOrder.actions ++ (onAction env0 svOrder (some erase0)).2 ∧
    ((onAction env0 svOrder (some erase0)).2.map (fun a => a.targetId)).Pairwise
      (fun x y => firstHitIdx svOrder.actions erase0 x < firstHitIdx svOrder.actions erase0 y) ∧
    (strokeIds sv0.actions).Nodup ∧
    ((onAction env0 sv0 (some erase0)).2.map (fun a => a.targetId)).Pairwise
      (fun x y => firstStrokeIdx sv0.actions x < firstStrokeIdx sv0.actions y) :=
  ⟨rfl, (C18_tombstone_order env0 svOrder erase0 rfl).1,
    (C18_tombstone_order env0 svOrder erase0 rfl).2.1, by decide,
    (C18_tombstone_order env0 sv0 erase0 rfl).2.2 (by decide)⟩

end LocalBoard
